import Mathlib

/-!
Shallow embedding of the core evaluation engine of this repository:
the ensemble combiner, the alarm post-processor, the point-adjusted
TSAD metrics and the rolling-window evaluator, together with proofs of
the documented properties.

The repository ships only callers of these components
(`examples/anomaly/2_AnomalyMultivariate.ipynb`, CI workflows, docker
and spark configurations); the component implementations themselves
(`merlion/models/ensemble/combine.py`, `merlion/post_process/threshold.py`,
`merlion/evaluate/anomaly.py`) are not part of the source tree, so every
definition below is modelled from the specification's words.

Timestamps are naturals, scores are rationals.  A series is a list of
(timestamp, value) pairs with strictly increasing timestamps.
-/

namespace Merlion

/-- A time series of dimensionality 1: one rational score per timestamp. -/
abbrev ScoreSeries := List (Nat × ℚ)

/-- A boolean-valued series: one alarm/label decision per timestamp. -/
abbrev BoolSeries := List (Nat × Bool)

/-- The timestamp index of a score series. -/
def seriesIndex (s : ScoreSeries) : List Nat := s.map Prod.fst

/-- The value column of a score series. -/
def seriesVals (s : ScoreSeries) : List ℚ := s.map Prod.snd

/-- Strictly increasing timestamps, as an executable check. -/
def strictIncTs (l : List (Nat × ℚ)) : Bool :=
  match l with
  | [] => true
  | [_] => true
  | p :: q :: rest => decide (p.1 < q.1) && strictIncTs (q :: rest)

/-! ## Ensemble Combiner

Modelled from the spec: `merlion/models/ensemble/combine.py` is missing
from the source tree.  `combine` takes an ordered sequence of score
series that must all share an identical timestamp index, and merges them
per-timestamp, either by maximum or by arithmetic mean.  Misaligned
inputs fail with `ShapeMismatch`; an empty input list is an eagerly
rejected (non-empty configuration) precondition violation. -/

/-- Error conditions raised by the combiner. -/
inductive CombineError where
  | ShapeMismatch
  | EmptyInput
deriving DecidableEq, Repr

/-- The two core combiner variants. -/
inductive CombinerVariant where
  | Max
  | Mean
deriving DecidableEq, Repr

/-- Per-timestamp aggregation of the values contributed by each input
series: maximum, or arithmetic mean. -/
def aggregate : CombinerVariant → List ℚ → ℚ
  | .Max, [] => 0
  | .Max, v :: vs => vs.foldl max v
  | .Mean, vs => vs.sum / (vs.length : ℚ)

/-- The i-th cross-series column: the value each input series holds at
index position `i`. -/
def columnAt (rows : List (List ℚ)) (i : Nat) : List ℚ :=
  rows.map (fun r => r.getD i 0)

/-- Modelled from the spec: the ensemble combiner.  Validates that all
inputs share an identical, fully aligned timestamp index (else
`ShapeMismatch`), then produces one output series on that index whose
value at each position aggregates the inputs' values there. -/
def combine (v : CombinerVariant) (inputs : List ScoreSeries) :
    Except CombineError ScoreSeries :=
  match inputs with
  | [] => .error .EmptyInput
  | s :: rest =>
    if _h : ∀ r ∈ rest, seriesIndex r = seriesIndex s then
      let rows := (s :: rest).map seriesVals
      .ok ((seriesIndex s).zip
        ((List.range (seriesVals s).length).map (fun i => aggregate v (columnAt rows i))))
    else
      .error .ShapeMismatch

/-! ### Combiner lemmas -/

theorem seriesIndex_length (s : ScoreSeries) : (seriesIndex s).length = s.length := by
  simp [seriesIndex]

theorem seriesVals_length (s : ScoreSeries) : (seriesVals s).length = s.length := by
  simp [seriesVals]

/-- Zipping a list of pairs' first and second projections recovers the list. -/
theorem zip_index_vals (s : ScoreSeries) : (seriesIndex s).zip (seriesVals s) = s := by
  induction s with
  | nil => rfl
  | cons p rest ih => simp [seriesIndex, seriesVals] at ih ⊢; exact ih

/-- Reading every position of a list in order recovers the list. -/
theorem map_getD_range (l : List ℚ) :
    (List.range l.length).map (fun i => l.getD i 0) = l := by
  apply List.ext_getElem
  · simp
  · intro i h1 h2
    simp only [List.getElem_map, List.getElem_range]
    simp at h1
    simp [List.getD_eq_getElem?_getD, List.getElem?_eq_getElem h1]

theorem aggregate_pair_comm (v : CombinerVariant) (x y : ℚ) :
    aggregate v [x, y] = aggregate v [y, x] := by
  cases v
  · simp [aggregate, max_comm]
  · simp [aggregate]; ring_nf

theorem aggregate_single (v : CombinerVariant) (x : ℚ) : aggregate v [x] = x := by
  cases v <;> simp [aggregate]

/-- C8: for score series `a` and `b` sharing an identical timestamp index,
`combine [a, b] = combine [b, a]`, for both the Max and the Mean variants. -/
theorem combiner_commutative (v : CombinerVariant) (a b : ScoreSeries)
    (h : seriesIndex a = seriesIndex b) :
    combine v [a, b] = combine v [b, a] := by
  have hlen : (seriesVals a).length = (seriesVals b).length := by
    have := congrArg List.length h
    simpa [seriesIndex, seriesVals] using this
  simp only [combine]
  rw [dif_pos (by intro r hr; rw [List.mem_singleton.mp hr]; exact h.symm),
      dif_pos (by intro r hr; rw [List.mem_singleton.mp hr]; exact h)]
  simp only [List.map_cons, List.map_nil]
  rw [h, hlen]
  congr 1
  congr 1
  apply List.map_congr_left
  intro i _
  simp only [columnAt, List.map_cons, List.map_nil]
  exact aggregate_pair_comm v _ _

/-- Witness for C8 at a concrete aligned pair of series. -/
theorem combiner_commutative_witness :
    combine .Max [[((0:Nat), (1:ℚ)), (1, 5)], [(0, 3), (1, 2)]]
      = combine .Max [[((0:Nat), (3:ℚ)), (1, 2)], [(0, 1), (1, 5)]] :=
  combiner_commutative .Max [(0, 1), (1, 5)] [(0, 3), (1, 2)] (by decide)

/-- C9: combining a single score series returns it unchanged, for both
the Max and the Mean variants. -/
theorem combiner_idempotent_singleton (v : CombinerVariant) (s : ScoreSeries) :
    combine v [s] = .ok s := by
  simp only [combine]
  rw [dif_pos (by intro r hr; exact absurd hr (List.not_mem_nil r))]
  have hmap : (List.range (seriesVals s).length).map
      (fun i => aggregate v (columnAt ([s].map seriesVals) i)) = seriesVals s := by
    have h1 : ∀ i ∈ List.range (seriesVals s).length,
        aggregate v (columnAt ([s].map seriesVals) i) = (seriesVals s).getD i 0 := by
      intro i _
      simp only [columnAt, List.map_cons, List.map_nil]
      exact aggregate_single v _
    rw [List.map_congr_left h1]
    exact map_getD_range (seriesVals s)
  simp only [List.map_cons, List.map_nil] at hmap ⊢
  rw [hmap, zip_index_vals]

/-- C6: whenever two of the combiner's inputs disagree on their timestamp
index, `combine` fails with `ShapeMismatch` and produces no result series. -/
theorem combiner_shape_mismatch (v : CombinerVariant) (inputs : List ScoreSeries)
    (a b : ScoreSeries) (ha : a ∈ inputs) (hb : b ∈ inputs)
    (hne : seriesIndex a ≠ seriesIndex b) :
    combine v inputs = .error .ShapeMismatch := by
  cases inputs with
  | nil => exact absurd ha (List.not_mem_nil a)
  | cons s rest =>
    simp only [combine]
    rw [dif_neg]
    intro hall
    have key : ∀ r ∈ s :: rest, seriesIndex r = seriesIndex s := by
      intro r hr
      rcases List.mem_cons.mp hr with h | h
      · rw [h]
      · exact hall r h
    exact hne ((key a ha).trans (key b hb).symm)

/-- Witness for C6 at a concrete misaligned input pair. -/
theorem combiner_shape_mismatch_witness :
    combine .Max [[((0:Nat), (1:ℚ))], [(1, 1)]] = .error .ShapeMismatch :=
  combiner_shape_mismatch .Max [[(0, 1)], [(1, 1)]] [(0, 1)] [(1, 1)]
    (by simp) (by simp) (by decide)

/-! ## Alarm Post-Processor

Modelled from the spec: `merlion/post_process/threshold.py`
(`AggregateAlarms`) is missing from the source tree.  The processor
normalizes each score with optional calibration statistics, marks
candidates at `z ≥ threshold`, debounces (an alarm only once
`min_consecutive` consecutive candidates have been seen, edge-triggered,
not re-triggered mid-run) and suppresses further alarms for
`suppress_duration` after each alarm. -/

/-- Configuration of the alarm post-processor (`AggregateAlarms`):
detection threshold in standard-deviation units, debounce length,
suppression duration, and the ε guard against a zero scale. -/
structure AggregateAlarms where
  alm_threshold : ℚ
  min_consecutive : Nat
  suppress_duration : Nat
  eps : ℚ
deriving DecidableEq, Repr

/-- Threshold-policy state: optional calibration statistics
(center, scale) plus the debounce/suppression state threaded across the
sequential points of one evaluation run. -/
structure PPState where
  calib : Option (ℚ × ℚ)
  consec : Nat
  firedInRun : Bool
  cooldownUntil : Nat
deriving DecidableEq, Repr

/-- A fresh, uncalibrated or calibrated state at the start of a run. -/
def freshPPState (calib : Option (ℚ × ℚ)) : PPState :=
  { calib := calib, consec := 0, firedInRun := false, cooldownUntil := 0 }

/-- Normalize a raw score into standard-deviation units using the
calibration statistics; uncalibrated scores pass through unchanged. -/
def normalize (calib : Option (ℚ × ℚ)) (eps x : ℚ) : ℚ :=
  match calib with
  | none => x
  | some (c, s) => (x - c) / max s eps

/-- Modelled from the spec: `calibrate` fits location/scale statistics
(mean and mean absolute deviation, a robust scale equivalent) on a
reference score sequence. -/
def calibrate (ref : ScoreSeries) : Option (ℚ × ℚ) :=
  match ref with
  | [] => none
  | _ =>
    let vs := seriesVals ref
    let m := vs.sum / (vs.length : ℚ)
    let s := ((vs.map (fun x => |x - m|)).sum) / (vs.length : ℚ)
    some (m, s)

/-- One step of the post-processor on a single (timestamp, score) point. -/
def ppStep (cfg : AggregateAlarms) (st : PPState) (p : Nat × ℚ) :
    PPState × (Nat × Bool) :=
  let z := normalize st.calib cfg.eps p.2
  if cfg.alm_threshold ≤ z then
    let consec := st.consec + 1
    if cfg.min_consecutive ≤ consec ∧ st.firedInRun = false ∧ st.cooldownUntil ≤ p.1 then
      ({ st with
          consec := consec
          firedInRun := true
          cooldownUntil := p.1 + cfg.suppress_duration }, (p.1, true))
    else
      ({ st with consec := consec }, (p.1, false))
  else
    ({ st with consec := 0, firedInRun := false }, (p.1, false))

/-- Run the post-processor over a score sequence from a given state,
returning the final state and the alarm series. -/
def processFrom (cfg : AggregateAlarms) (st : PPState) :
    ScoreSeries → PPState × BoolSeries
  | [] => (st, [])
  | p :: rest =>
    let s1 := ppStep cfg st p
    let s2 := processFrom cfg s1.1 rest
    (s2.1, s1.2 :: s2.2)

/-- Modelled from the spec: `process(scores) -> AlarmSeries`. -/
def process (cfg : AggregateAlarms) (st : PPState) (scores : ScoreSeries) :
    BoolSeries :=
  (processFrom cfg st scores).2

/-! ### Post-processor lemmas -/

/-- Splitting a run of the post-processor over an append. -/
theorem processFrom_append (cfg : AggregateAlarms) (st : PPState)
    (xs ys : ScoreSeries) :
    processFrom cfg st (xs ++ ys) =
      ((processFrom cfg (processFrom cfg st xs).1 ys).1,
       (processFrom cfg st xs).2 ++ (processFrom cfg (processFrom cfg st xs).1 ys).2) := by
  induction xs generalizing st with
  | nil => simp [processFrom]
  | cons p rest ih => simp [processFrom, ih]

/-- A candidate point below the debounce count produces no alarm and only
increments the count. -/
theorem ppStep_candidate_below (cfg : AggregateAlarms) (st : PPState)
    (p : Nat × ℚ) (hc : cfg.alm_threshold ≤ normalize st.calib cfg.eps p.2)
    (hlt : st.consec + 1 < cfg.min_consecutive) :
    ppStep cfg st p = ({ st with consec := st.consec + 1 }, (p.1, false)) := by
  simp only [ppStep, if_pos hc]
  rw [if_neg]
  intro ⟨h1, _, _⟩
  omega

/-- Processing a block of candidates too short to reach the debounce
count emits no alarm, increments the count by the block length, and
leaves the rest of the state unchanged. -/
theorem processFrom_short_run (cfg : AggregateAlarms) (xs : ScoreSeries) :
    ∀ st : PPState, (∀ p ∈ xs, cfg.alm_threshold ≤ normalize st.calib cfg.eps p.2) →
    st.consec + xs.length < cfg.min_consecutive →
    processFrom cfg st xs =
      ({ st with consec := st.consec + xs.length },
       xs.map (fun p => (p.1, false))) := by
  induction xs with
  | nil => intro st _ _; simp [processFrom]
  | cons p rest ih =>
    intro st hcand hlen
    have hstep := ppStep_candidate_below cfg st p (hcand p (List.mem_cons_self p rest))
      (by simp at hlen; omega)
    have hrest := ih { st with consec := st.consec + 1 }
      (by intro q hq; exact hcand q (List.mem_cons_of_mem p hq))
      (by simp at hlen ⊢; omega)
    have harith : st.consec + 1 + rest.length = st.consec + (p :: rest).length := by
      simp [List.length_cons]; omega
    simp only [processFrom, hstep, hrest, List.map_cons, harith]

/-- A candidate point reaching the debounce count with no alarm yet in
this run and an expired cooldown fires an alarm. -/
theorem ppStep_fire (cfg : AggregateAlarms) (st : PPState) (p : Nat × ℚ)
    (hc : cfg.alm_threshold ≤ normalize st.calib cfg.eps p.2)
    (hk : cfg.min_consecutive ≤ st.consec + 1)
    (hf : st.firedInRun = false) (hcool : st.cooldownUntil ≤ p.1) :
    ppStep cfg st p = ({ st with
        consec := st.consec + 1
        firedInRun := true
        cooldownUntil := p.1 + cfg.suppress_duration }, (p.1, true)) := by
  simp only [ppStep, if_pos hc]
  rw [if_pos ⟨hk, hf, hcool⟩]

/-- A below-threshold point never alarms and resets the debounce run. -/
theorem ppStep_noncandidate (cfg : AggregateAlarms) (st : PPState) (p : Nat × ℚ)
    (hc : normalize st.calib cfg.eps p.2 < cfg.alm_threshold) :
    ppStep cfg st p = ({ st with consec := 0, firedInRun := false }, (p.1, false)) := by
  simp only [ppStep]
  rw [if_neg (not_le.mpr hc)]

/-- Marking every point false and projecting the decisions gives a
constant-false list. -/
theorem map_snd_mark_false (xs : List (Nat × ℚ)) :
    (xs.map (fun p => (p.1, false))).map Prod.snd = List.replicate xs.length false := by
  induction xs with
  | nil => rfl
  | cons p rest ih => simp only [List.map_cons, List.length_cons, List.replicate_succ, ih]

/-- C3: with `min_consecutive = k ≥ 1`, from the start of a run, a block
of exactly `k-1` candidate points followed by a below-threshold point
produces no alarm at all, while a block of exactly `k` candidate points
produces exactly one alarm, emitted at the k-th point. -/
theorem alarm_debounce (cfg : AggregateAlarms) (calib : Option (ℚ × ℚ))
    (hk : 1 ≤ cfg.min_consecutive) :
    (∀ (xs : ScoreSeries) (y : Nat × ℚ),
        xs.length = cfg.min_consecutive - 1 →
        (∀ p ∈ xs, cfg.alm_threshold ≤ normalize calib cfg.eps p.2) →
        normalize calib cfg.eps y.2 < cfg.alm_threshold →
        (process cfg (freshPPState calib) (xs ++ [y])).map Prod.snd
          = List.replicate cfg.min_consecutive false)
    ∧ (∀ xs : ScoreSeries,
        xs.length = cfg.min_consecutive →
        (∀ p ∈ xs, cfg.alm_threshold ≤ normalize calib cfg.eps p.2) →
        (process cfg (freshPPState calib) xs).map Prod.snd
          = List.replicate (cfg.min_consecutive - 1) false ++ [true]) := by
  constructor
  · intro xs y hlen hcand hy
    unfold process
    rw [processFrom_append,
        processFrom_short_run cfg xs (freshPPState calib) (fun p hp => hcand p hp)
          (by simp [freshPPState]; omega)]
    simp only [processFrom]
    rw [ppStep_noncandidate]
    · simp only [List.map_append, map_snd_mark_false, List.map_cons, List.map_nil, hlen]
      rw [← List.replicate_succ']
      congr 1
      omega
    · exact hy
  · intro xs hlen hcand
    rcases List.eq_nil_or_concat xs with h | ⟨ys, y, hxs⟩
    · rw [h] at hlen; simp at hlen; omega
    · rw [List.concat_eq_append] at hxs
      subst hxs
      have hys : ys.length = cfg.min_consecutive - 1 := by
        simp at hlen; omega
      unfold process
      rw [processFrom_append,
          processFrom_short_run cfg ys (freshPPState calib)
            (fun p hp => hcand p (List.mem_append_left [y] hp))
            (by simp [freshPPState]; omega)]
      simp only [processFrom]
      rw [ppStep_fire]
      · simp only [List.map_append, map_snd_mark_false, List.map_cons, List.map_nil, hys]
      · exact hcand y (List.mem_append_right ys (by simp))
      · simp [freshPPState]; omega
      · rfl
      · exact Nat.zero_le _

/-- Witness for C3: threshold 1, `min_consecutive = 2`, uncalibrated. -/
theorem alarm_debounce_witness :
    (process ⟨1, 2, 5, 1/100⟩ (freshPPState none) [(0, 3), (1, 0)]).map Prod.snd
        = List.replicate 2 false
    ∧ (process ⟨1, 2, 5, 1/100⟩ (freshPPState none) [(0, 3), (1, 3)]).map Prod.snd
        = List.replicate 1 false ++ [true] := by
  have h := alarm_debounce ⟨1, 2, 5, 1/100⟩ none (by decide)
  exact ⟨h.1 [(0, 3)] (1, 0) (by decide) (by decide) (by decide),
         h.2 [(0, 3), (1, 3)] (by decide) (by decide)⟩

/-- Each step reports the point's own timestamp. -/
theorem ppStep_fst (cfg : AggregateAlarms) (st : PPState) (p : Nat × ℚ) :
    (ppStep cfg st p).2.1 = p.1 := by
  simp only [ppStep]
  split_ifs <;> rfl

/-- A step only alarms when the cooldown has expired, and firing pushes
the cooldown to the alarm's timestamp plus the suppression duration. -/
theorem ppStep_true_inv (cfg : AggregateAlarms) (st : PPState) (p : Nat × ℚ)
    (h : (ppStep cfg st p).2.2 = true) :
    st.cooldownUntil ≤ p.1 ∧
    (ppStep cfg st p).1.cooldownUntil = p.1 + cfg.suppress_duration := by
  simp only [ppStep] at h ⊢
  split_ifs at h ⊢ with h1 h2
  exact ⟨h2.2.2, rfl⟩

/-- The cooldown deadline never decreases across a step. -/
theorem ppStep_cooldown_mono (cfg : AggregateAlarms) (st : PPState) (p : Nat × ℚ) :
    st.cooldownUntil ≤ (ppStep cfg st p).1.cooldownUntil := by
  simp only [ppStep]
  split_ifs with h1 h2
  · exact le_trans h2.2.2 (Nat.le_add_right _ _)
  · exact le_refl _
  · exact le_refl _

/-- Every alarm produced from a given state carries a timestamp at or
after that state's cooldown deadline. -/
theorem processFrom_alarms_ge_cooldown (cfg : AggregateAlarms) (scores : ScoreSeries) :
    ∀ st : PPState, ∀ q ∈ (processFrom cfg st scores).2, q.2 = true →
      st.cooldownUntil ≤ q.1 := by
  induction scores with
  | nil => intro st q hq; simp [processFrom] at hq
  | cons p rest ih =>
    intro st q hq htrue
    simp only [processFrom, List.mem_cons] at hq
    rcases hq with h | h
    · subst h
      have := (ppStep_true_inv cfg st p htrue).1
      rw [ppStep_fst cfg st p]
      exact this
    · exact le_trans (ppStep_cooldown_mono cfg st p) (ih (ppStep cfg st p).1 q h htrue)

/-- C4: after an alarm fires at time `t` with suppression duration `d`,
no later alarm in the output series has a timestamp strictly before
`t + d`, even when every intervening point is a candidate: alarms are
pairwise separated by at least `d`. -/
theorem alarm_suppression (cfg : AggregateAlarms) (st : PPState) (scores : ScoreSeries) :
    List.Pairwise (fun q r => q.1 + cfg.suppress_duration ≤ r.1)
      ((process cfg st scores).filter (fun q => q.2)) := by
  unfold process
  induction scores generalizing st with
  | nil => simp [processFrom]
  | cons p rest ih =>
    simp only [processFrom]
    by_cases htrue : (ppStep cfg st p).2.2 = true
    · rw [List.filter_cons_of_pos htrue]
      refine List.Pairwise.cons ?_ (ih (ppStep cfg st p).1)
      intro r hr
      have hrmem := (List.mem_filter.mp hr).1
      have hrtrue : r.2 = true := (List.mem_filter.mp hr).2
      have hge := processFrom_alarms_ge_cooldown cfg rest (ppStep cfg st p).1 r hrmem hrtrue
      rw [(ppStep_true_inv cfg st p htrue).2] at hge
      rw [ppStep_fst cfg st p]
      exact hge
    · rw [List.filter_cons_of_neg (by simpa using htrue)]
      exact ih (ppStep cfg st p).1

/-- C10: processing an empty score series returns an empty alarm series,
whatever the configuration and whether or not the state is calibrated. -/
theorem process_empty (cfg : AggregateAlarms) (st : PPState) :
    process cfg st [] = [] := rfl

/-! ## Point-Adjusted Metrics

Modelled from the spec: `merlion/evaluate/anomaly.py` (`TSADMetric`) is
missing from the source tree.  Anomaly segments are the maximal runs of
consecutive ground-truth-positive timestamps; a segment is detected when
at least one predicted alarm falls inside it; the point-adjustment rule
then treats every timestamp of a detected segment as a true positive. -/

/-- Error conditions raised by the metrics. -/
inductive MetricError where
  | NoSegments
deriving DecidableEq, Repr

/-- Run-length grouping of the ground-truth booleans, accumulating the
current open run of positives. -/
def segmentsAux (cur : Option (Nat × Nat)) : BoolSeries → List (Nat × Nat)
  | [] =>
    match cur with
    | none => []
    | some seg => [seg]
  | (t, b) :: rest =>
    match cur, b with
    | none, false => segmentsAux none rest
    | none, true => segmentsAux (some (t, t)) rest
    | some (s, _), true => segmentsAux (some (s, t)) rest
    | some seg, false => seg :: segmentsAux none rest

/-- The anomaly segments of a ground-truth label series: maximal runs of
consecutive `true` timestamps, as (start, end) timestamp pairs. -/
def segments (gt : BoolSeries) : List (Nat × Nat) := segmentsAux none gt

/-- The timestamps at which the predicted alarm series fires. -/
def alarmTimes (pred : BoolSeries) : List Nat :=
  (pred.filter (fun p => p.2)).map Prod.fst

/-- Whether a timestamp lies inside a segment's `[start, end]` interval. -/
def inSeg (seg : Nat × Nat) (t : Nat) : Bool :=
  decide (seg.1 ≤ t) && decide (t ≤ seg.2)

/-- A segment is detected when at least one predicted alarm timestamp
falls within `[segment.start, segment.end]`. -/
def detectedB (pred : BoolSeries) (seg : Nat × Nat) : Bool :=
  (alarmTimes pred).any (inSeg seg)

/-- Adjusted true positives: every ground-truth timestamp lying inside a
detected segment counts as a true positive. -/
def adjustedTP (gt pred : BoolSeries) : Nat :=
  gt.countP (fun p => ((segments gt).filter (detectedB pred)).any (fun seg => inSeg seg p.1))

/-- False positives: predicted alarms outside every ground-truth
segment; within-segment non-alarmed points are never counted. -/
def falsePositives (gt pred : BoolSeries) : Nat :=
  (alarmTimes pred).countP (fun t => !(segments gt).any (fun seg => inSeg seg t))

/-- Modelled from the spec: `TSADMetric.PointAdjustedPrecision` —
adjusted-TP / (adjusted-TP + FP). -/
def pointAdjustedPrecision (gt pred : BoolSeries) : ℚ :=
  (adjustedTP gt pred : ℚ) / ((adjustedTP gt pred : ℚ) + (falsePositives gt pred : ℚ))

/-- Modelled from the spec: `TSADMetric.PointAdjustedRecall` —
(segments detected) / (total segments), undefined without segments. -/
def pointAdjustedRecall (gt pred : BoolSeries) : Except MetricError ℚ :=
  if segments gt = [] then .error .NoSegments
  else .ok ((((segments gt).countP (detectedB pred) : Nat) : ℚ) / ((segments gt).length : ℚ))

/-- The timestamp of the first predicted alarm inside a segment. -/
def firstAlarmIn (pred : BoolSeries) (seg : Nat × Nat) : Option Nat :=
  (alarmTimes pred).find? (inSeg seg)

/-- A detected segment's detection delay: first in-segment alarm
timestamp minus the segment start. -/
def detectDelay (pred : BoolSeries) (seg : Nat × Nat) : Nat :=
  (firstAlarmIn pred seg).getD seg.1 - seg.1

/-- Modelled from the spec: `TSADMetric.MeanTimeToDetect` — the average
detection delay over detected segments only; undetected segments are
excluded, and with no detected segment the metric is undefined. -/
def meanTimeToDetect (gt pred : BoolSeries) : Except MetricError ℚ :=
  if (segments gt).filter (detectedB pred) = [] then .error .NoSegments
  else
    .ok ((((((segments gt).filter (detectedB pred)).map (detectDelay pred)).sum : Nat) : ℚ)
      / (((segments gt).filter (detectedB pred)).length : ℚ))

/-- Ground truth with one anomaly segment covering timestamps 10..13. -/
def gtSeg1013 : BoolSeries :=
  [(8, false), (9, false), (10, true), (11, true), (12, true), (13, true), (14, false)]

/-- Predicted alarms: a single alarm at timestamp 12. -/
def predAlarm12 : BoolSeries :=
  [(8, false), (9, false), (10, false), (11, false), (12, true), (13, false), (14, false)]

/-- Predicted alarms: no alarm at all. -/
def predNoAlarm : BoolSeries :=
  [(8, false), (9, false), (10, false), (11, false), (12, false), (13, false), (14, false)]

/-- C1: on the ground truth whose only segment covers 10..13 and a
prediction whose only alarm is at 12, Adjusted Recall is 1, Adjusted
Precision is 1 (all four segment timestamps adjusted-TP, zero FP), and
MTTD is 2 (first in-segment alarm 12 minus segment start 10). -/
theorem point_adjustment_concrete :
    pointAdjustedRecall gtSeg1013 predAlarm12 = .ok 1 ∧
    pointAdjustedPrecision gtSeg1013 predAlarm12 = 1 ∧
    adjustedTP gtSeg1013 predAlarm12 = 4 ∧
    falsePositives gtSeg1013 predAlarm12 = 0 ∧
    meanTimeToDetect gtSeg1013 predAlarm12 = .ok 2 := by
  refine ⟨?_, ?_, rfl, rfl, ?_⟩
  · unfold pointAdjustedRecall
    rw [show segments gtSeg1013 = [(10, 13)] from rfl]
    rw [if_neg (by simp)]
    rw [show ([((10:Nat), (13:Nat))]).countP (detectedB predAlarm12) = 1 from rfl]
    norm_num
  · unfold pointAdjustedPrecision
    rw [show adjustedTP gtSeg1013 predAlarm12 = 4 from rfl,
        show falsePositives gtSeg1013 predAlarm12 = 0 from rfl]
    norm_num
  · unfold meanTimeToDetect
    rw [show (segments gtSeg1013).filter (detectedB predAlarm12) = [(10, 13)] from rfl]
    rw [if_neg (by simp)]
    rw [show ([((10:Nat), (13:Nat))]).map (detectDelay predAlarm12) = [2] from rfl]
    norm_num

/-- C7: MTTD averages over detected segments only and, together with
Recall in the zero-segment case, is a `NoSegments` error rather than a
numeric sentinel whenever no detected segment exists; on the segment
10..13 with no alarms, Recall is 0 and MTTD is the error. -/
theorem mttd_excludes_undetected :
    (∀ gt pred : BoolSeries, segments gt = [] →
        pointAdjustedRecall gt pred = .error .NoSegments ∧
        meanTimeToDetect gt pred = .error .NoSegments)
    ∧ (∀ gt pred : BoolSeries, (∀ seg ∈ segments gt, ¬ detectedB pred seg = true) →
        meanTimeToDetect gt pred = .error .NoSegments)
    ∧ pointAdjustedRecall gtSeg1013 predNoAlarm = .ok 0
    ∧ meanTimeToDetect gtSeg1013 predNoAlarm = .error .NoSegments := by
  refine ⟨?_, ?_, ?_, ?_⟩
  · intro gt pred h
    constructor
    · unfold pointAdjustedRecall
      rw [if_pos h]
    · unfold meanTimeToDetect
      rw [if_pos (by rw [h]; rfl)]
  · intro gt pred h
    unfold meanTimeToDetect
    rw [if_pos (List.filter_eq_nil_iff.mpr h)]
  · unfold pointAdjustedRecall
    rw [show segments gtSeg1013 = [(10, 13)] from rfl]
    rw [if_neg (by simp)]
    rw [show ([((10:Nat), (13:Nat))]).countP (detectedB predNoAlarm) = 0 from rfl]
    norm_num
  · unfold meanTimeToDetect
    rw [if_pos (show (segments gtSeg1013).filter (detectedB predNoAlarm) = [] from rfl)]

/-- Witness for C7 at concrete inputs: an empty ground truth and a
single undetected segment. -/
theorem mttd_excludes_undetected_witness :
    pointAdjustedRecall [] [] = .error .NoSegments ∧
    meanTimeToDetect [((0:Nat), true)] [((0:Nat), false)] = .error .NoSegments :=
  ⟨(mttd_excludes_undetected.1 [] [] rfl).1,
   mttd_excludes_undetected.2.1 [(0, true)] [(0, false)] (by decide)⟩

/-! ## Rolling-Window Evaluator

Modelled from the spec: `merlion/evaluate/anomaly.py` (`TSADEvaluator`,
`TSADEvaluatorConfig`, `get_predict`) is missing from the source tree.
The evaluator fits the model on the training data, partitions the test
data into consecutive windows of duration `cadence` anchored at the
first test timestamp and covering the full horizon, retrains whenever
the elapsed duration since the last retrain reaches `retrain_freq`, and
concatenates the per-window scores in window order. -/

/-- The first timestamp of a series (0 for an empty series). -/
def firstTs (l : List (Nat × ℚ)) : Nat := (l.map Prod.fst).headD 0

/-- The last timestamp of a series (0 for an empty series). -/
def lastTs (l : List (Nat × ℚ)) : Nat := (l.map Prod.fst).getLastD 0

/-- The duration of the test horizon spanned by a (nonempty) series. -/
def horizonOf (l : List (Nat × ℚ)) : Nat := lastTs l - firstTs l + 1

/-- The data points whose timestamps fall in the window `[lo, hi)`. -/
def windowSlice (lo hi : Nat) (data : List (Nat × ℚ)) : List (Nat × ℚ) :=
  data.filter (fun p => decide (lo ≤ p.1) && decide (p.1 < hi))

/-- How many cadence-length windows cover the test horizon. -/
def numWindows (c : Nat) (data : List (Nat × ℚ)) : Nat :=
  (lastTs data - firstTs data) / c + 1

/-- Partition of the test data into consecutive, non-overlapping windows
of duration `cadence`, anchored at the first test timestamp, in
timestamp order, covering the full horizon. -/
def windows (c : Nat) (data : List (Nat × ℚ)) : List (List (Nat × ℚ)) :=
  match data with
  | [] => []
  | _ :: _ =>
    (List.range (numWindows c data)).map
      (fun i => windowSlice (firstTs data + i * c) (firstTs data + (i + 1) * c) data)

/-- The model collaborator contract: `train` fits on data and returns
the trained model state, `score` runs inference. -/
structure Model (σ : Type) where
  train : List (Nat × ℚ) → σ
  score : σ → List (Nat × ℚ) → ScoreSeries

/-- Modelled from the spec: `TSADEvaluatorConfig` — window cadence,
optional retraining frequency and optional training-window lookback. -/
structure TSADEvaluatorConfig where
  cadence : Nat
  retrain_freq : Option Nat
  train_window : Option Nat
deriving DecidableEq, Repr

/-- Error conditions raised by the evaluator. -/
inductive EvalError where
  | NonMonotonicTimestamps
  | InsufficientHistory
deriving DecidableEq, Repr

/-- The evaluator's intra-run state: current model state, accumulated
history, elapsed duration since the last retrain, and the number of
`train` invocations so far. -/
structure EvalState (σ : Type) where
  model : σ
  history : List (Nat × ℚ)
  sinceLast : Nat
  trainCount : Nat

/-- Whether a retrain is due before the next window. -/
def retrainNeeded {σ : Type} (cfg : TSADEvaluatorConfig) (st : EvalState σ) : Bool :=
  match cfg.retrain_freq with
  | none => false
  | some R => decide (R ≤ st.sinceLast)

/-- Truncate the accumulated history to the configured lookback. -/
def truncHistory (tw : Option Nat) (hist : List (Nat × ℚ)) : List (Nat × ℚ) :=
  match tw with
  | none => hist
  | some W => hist.filter (fun p => decide (lastTs hist < p.1 + W))

/-- Retrain the model on the (truncated) accumulated history, reset the
retrain timer and count the `train` invocation. -/
def retrainState {σ : Type} (M : Model σ) (cfg : TSADEvaluatorConfig)
    (st : EvalState σ) : EvalState σ :=
  { st with
      model := M.train (truncHistory cfg.train_window st.history)
      sinceLast := 0
      trainCount := st.trainCount + 1 }

/-- The per-window loop: before each window, retrain if due (failing
with `InsufficientHistory` when a retrain is due before any data
exists); then score the window with the current model, append the
window to history, and advance the retrain timer by the window's
duration. -/
def runWindows {σ : Type} (M : Model σ) (cfg : TSADEvaluatorConfig) :
    EvalState σ → List (List (Nat × ℚ)) → Except EvalError (List ScoreSeries × EvalState σ)
  | st, [] => .ok ([], st)
  | st, w :: ws =>
    if retrainNeeded cfg st && decide (st.history = []) then
      .error .InsufficientHistory
    else
      let st1 := if retrainNeeded cfg st then retrainState M cfg st else st
      let out := M.score st1.model w
      match runWindows M cfg { st1 with
          history := st1.history ++ w
          sinceLast := st1.sinceLast + cfg.cadence } ws with
      | .ok (outs, stf) => .ok (out :: outs, stf)
      | .error e => .error e

/-- The evaluator's output: in-sample training scores, the concatenated
test scores, and the final evaluator state. -/
structure EvalResult (σ : Type) where
  trainPred : ScoreSeries
  testPred : ScoreSeries
  finalState : EvalState σ

/-- Modelled from the spec: `TSADEvaluator.get_predict` / `evaluate` —
validates monotonicity, fits the model on the training data (the first
`train` invocation), replays the test data window by window, and
concatenates the per-window scores in window order. -/
def evaluate {σ : Type} (M : Model σ) (cfg : TSADEvaluatorConfig)
    (train_data test_data : List (Nat × ℚ)) : Except EvalError (EvalResult σ) :=
  if strictIncTs test_data then
    let m0 := M.train train_data
    let s0 : EvalState σ :=
      { model := m0, history := train_data, sinceLast := 0, trainCount := 1 }
    match runWindows M cfg s0 (windows cfg.cadence test_data) with
    | .ok (outs, stf) => .ok ⟨M.score m0 train_data, outs.flatten, stf⟩
    | .error e => .error e
  else .error .NonMonotonicTimestamps

/-! ### Window partition lemmas -/

/-- `strictIncTs` certifies pairwise strictly increasing timestamps. -/
theorem strictIncTs_pairwise : ∀ l : List (Nat × ℚ), strictIncTs l = true →
    List.Pairwise (fun p q : Nat × ℚ => p.1 < q.1) l
  | [], _ => List.Pairwise.nil
  | [p], _ => by simp
  | p :: q :: rest, h => by
    simp only [strictIncTs, Bool.and_eq_true, decide_eq_true_eq] at h
    have ih := strictIncTs_pairwise (q :: rest) h.2
    refine List.Pairwise.cons ?_ ih
    intro r hr
    rcases List.mem_cons.mp hr with rfl | hr'
    · exact h.1
    · have := (List.pairwise_cons.mp ih).1 r hr'
      omega

/-- In a sorted series the first timestamp is minimal. -/
theorem firstTs_le_of_sorted : ∀ l : List (Nat × ℚ),
    List.Pairwise (fun p q : Nat × ℚ => p.1 < q.1) l →
    ∀ p ∈ l, firstTs l ≤ p.1
  | [], _, p, hp => by simp at hp
  | x :: rest, hs, p, hp => by
    rcases List.mem_cons.mp hp with rfl | hp'
    · exact le_refl _
    · have := (List.pairwise_cons.mp hs).1 p hp'
      simp only [firstTs, List.map_cons, List.headD_cons]
      omega

/-- In a sorted series the last timestamp is maximal. -/
theorem le_lastTs_of_sorted : ∀ l : List (Nat × ℚ),
    List.Pairwise (fun p q : Nat × ℚ => p.1 < q.1) l →
    ∀ p ∈ l, p.1 ≤ lastTs l
  | [], _, p, hp => by simp at hp
  | [x], _, p, hp => by
    rcases List.mem_cons.mp hp with rfl | hp'
    · exact le_refl _
    · simp at hp'
  | x :: y :: rest, hs, p, hp => by
    have hlast : lastTs (x :: y :: rest) = lastTs (y :: rest) := by
      simp [lastTs, List.getLastD_cons]
    rw [hlast]
    rcases List.mem_cons.mp hp with rfl | hp'
    · have h1 := (List.pairwise_cons.mp hs).1 y (List.mem_cons_self y rest)
      have h2 := le_lastTs_of_sorted (y :: rest) (List.pairwise_cons.mp hs).2 y
        (List.mem_cons_self y rest)
      omega
    · exact le_lastTs_of_sorted (y :: rest) (List.pairwise_cons.mp hs).2 p hp'

/-- On a sorted series, filtering by a timestamp upper bound is a prefix. -/
theorem filter_lt_eq_takeWhile (v : Nat) : ∀ l : List (Nat × ℚ),
    List.Pairwise (fun p q : Nat × ℚ => p.1 < q.1) l →
    l.filter (fun p => decide (p.1 < v)) = l.takeWhile (fun p => decide (p.1 < v))
  | [], _ => rfl
  | x :: rest, hs => by
    rw [List.filter_cons, List.takeWhile_cons]
    by_cases hx : x.1 < v
    · rw [if_pos (by simpa using hx), if_pos (by simpa using hx),
        filter_lt_eq_takeWhile v rest (List.pairwise_cons.mp hs).2]
    · rw [if_neg (by simpa using hx), if_neg (by simpa using hx)]
      apply List.filter_eq_nil_iff.mpr
      intro a ha
      have := (List.pairwise_cons.mp hs).1 a ha
      simp only [decide_eq_true_eq]
      omega

/-- On a sorted series, everything after the prefix below `v` is at or
above `v`. -/
theorem dropWhile_ge (v : Nat) : ∀ l : List (Nat × ℚ),
    List.Pairwise (fun p q : Nat × ℚ => p.1 < q.1) l →
    ∀ p ∈ l.dropWhile (fun p => decide (p.1 < v)), v ≤ p.1
  | [], _, p, hp => by simp at hp
  | x :: rest, hs, p, hp => by
    rw [List.dropWhile_cons] at hp
    by_cases hx : x.1 < v
    · rw [if_pos (by simpa using hx)] at hp
      exact dropWhile_ge v rest (List.pairwise_cons.mp hs).2 p hp
    · rw [if_neg (by simpa using hx)] at hp
      rcases List.mem_cons.mp hp with rfl | hp'
      · omega
      · have := (List.pairwise_cons.mp hs).1 p hp'
        omega

/-- Consecutive cadence-length slices starting at `lo` reassemble a
sorted series whose timestamps all lie in `[lo, lo + N*c)`. -/
theorem flatten_slices (c : Nat) (_hc : 0 < c) :
    ∀ (N lo : Nat) (data : List (Nat × ℚ)),
    List.Pairwise (fun p q : Nat × ℚ => p.1 < q.1) data →
    (∀ p ∈ data, lo ≤ p.1 ∧ p.1 < lo + N * c) →
    ((List.range N).map (fun i => windowSlice (lo + i * c) (lo + (i + 1) * c) data)).flatten
      = data := by
  intro N
  induction N with
  | zero =>
    intro lo data _ hb
    have hnil : data = [] := by
      cases data with
      | nil => rfl
      | cons p rest =>
        have := hb p (List.mem_cons_self p rest)
        omega
    rw [hnil]
    simp
  | succ N ih =>
    intro lo data hs hb
    rw [List.range_succ_eq_map, List.map_cons, List.map_map, List.flatten_cons]
    have hA : windowSlice (lo + 0 * c) (lo + (0 + 1) * c) data
        = data.takeWhile (fun p => decide (p.1 < lo + c)) := by
      unfold windowSlice
      have hcg : ∀ p ∈ data,
          (decide (lo + 0 * c ≤ p.1) && decide (p.1 < lo + (0 + 1) * c))
            = decide (p.1 < lo + c) := by
        intro p hp
        have h1 := (hb p hp).1
        have e1 : lo + 0 * c = lo := by ring
        have e2 : lo + (0 + 1) * c = lo + c := by ring
        rw [e1, e2]
        simp [h1]
      rw [List.filter_congr hcg]
      exact filter_lt_eq_takeWhile (lo + c) data hs
    rw [hA]
    have hshift : ∀ i ∈ List.range N,
        ((fun i => windowSlice (lo + i * c) (lo + (i + 1) * c) data) ∘ Nat.succ) i
          = windowSlice ((lo + c) + i * c) ((lo + c) + (i + 1) * c)
              (data.dropWhile (fun p => decide (p.1 < lo + c))) := by
      intro i _
      simp only [Function.comp_apply]
      have e1 : lo + (Nat.succ i) * c = (lo + c) + i * c := by
        simp only [Nat.succ_eq_add_one]; ring
      have e2 : lo + (Nat.succ i + 1) * c = (lo + c) + (i + 1) * c := by
        simp only [Nat.succ_eq_add_one]; ring
      rw [e1, e2]
      conv_lhs => rw [← List.takeWhile_append_dropWhile
        (p := fun p : Nat × ℚ => decide (p.1 < lo + c)) (l := data)]
      unfold windowSlice
      rw [List.filter_append, List.filter_eq_nil_iff.mpr ?_, List.nil_append]
      intro a ha
      have hlt : a.1 < lo + c := by simpa using List.mem_takeWhile_imp ha
      simp only [Bool.and_eq_true, decide_eq_true_eq, not_and]
      intro hge
      omega
    rw [List.map_congr_left hshift]
    rw [ih (lo + c) (data.dropWhile (fun p => decide (p.1 < lo + c)))
      (List.Pairwise.sublist (List.dropWhile_sublist _) hs) ?_]
    · apply List.takeWhile_append_dropWhile
    · intro p hp
      refine ⟨dropWhile_ge (lo + c) data hs p hp, ?_⟩
      have hmem : p ∈ data := (List.dropWhile_sublist _).mem hp
      have := (hb p hmem).2
      have e3 : lo + (N + 1) * c = (lo + c) + N * c := by ring
      omega

/-- Reassembling the evaluator's windows recovers the test series. -/
theorem windows_flatten (c : Nat) (hc : 0 < c) (data : List (Nat × ℚ))
    (hs : List.Pairwise (fun p q : Nat × ℚ => p.1 < q.1) data) :
    (windows c data).flatten = data := by
  cases data with
  | nil => rfl
  | cons x rest =>
    unfold windows
    apply flatten_slices c hc (numWindows c (x :: rest)) (firstTs (x :: rest)) _ hs
    intro p hp
    refine ⟨firstTs_le_of_sorted _ hs p hp, ?_⟩
    have h1 := le_lastTs_of_sorted _ hs p hp
    have h0 := le_lastTs_of_sorted _ hs x (List.mem_cons_self x rest)
    have hfx : firstTs (x :: rest) = x.1 := rfl
    unfold numWindows
    set f := firstTs (x :: rest)
    set L := lastTs (x :: rest)
    have hdiv : (L - f) / c < (L - f) / c + 1 := Nat.lt_succ_self _
    have hlt : (L - f) < ((L - f) / c + 1) * c := (Nat.div_lt_iff_lt_mul hc).mp hdiv
    set X := ((L - f) / c + 1) * c
    omega

/-- The number of windows of a nonempty series. -/
theorem windows_length (c : Nat) (x : Nat × ℚ) (rest : List (Nat × ℚ)) :
    (windows c (x :: rest)).length = numWindows c (x :: rest) := by
  unfold windows
  simp

/-- A nonempty series' window list starts with the window anchored at
the first timestamp, which contains the first point. -/
theorem windows_head (c : Nat) (hc : 0 < c) (x : Nat × ℚ) (rest : List (Nat × ℚ)) :
    ∃ wrest, windows c (x :: rest)
        = windowSlice (firstTs (x :: rest)) (firstTs (x :: rest) + c) (x :: rest) :: wrest
      ∧ x ∈ windowSlice (firstTs (x :: rest)) (firstTs (x :: rest) + c) (x :: rest) := by
  simp only [windows, numWindows]
  rw [List.range_succ_eq_map, List.map_cons]
  have e1 : firstTs (x :: rest) + 0 * c = firstTs (x :: rest) := by ring
  have e2 : firstTs (x :: rest) + (0 + 1) * c = firstTs (x :: rest) + c := by ring
  rw [e1, e2]
  refine ⟨_, rfl, ?_⟩
  unfold windowSlice
  apply List.mem_filter.mpr
  refine ⟨List.mem_cons_self x rest, ?_⟩
  have : firstTs (x :: rest) = x.1 := rfl
  simp only [Bool.and_eq_true, decide_eq_true_eq]
  omega

/-- The retrain branch never changes the accumulated history. -/
theorem history_after_retrain_if {σ : Type} (M : Model σ) (cfg : TSADEvaluatorConfig)
    (st : EvalState σ) :
    (if retrainNeeded cfg st then retrainState M cfg st else st).history = st.history := by
  split <;> rfl

/-- The window loop never fails when the history is nonempty, or when no
retrain is due yet and the first window (if any) is nonempty. -/
theorem runWindows_ne_error {σ : Type} (M : Model σ) (cfg : TSADEvaluatorConfig) :
    ∀ (ws : List (List (Nat × ℚ))) (st : EvalState σ),
    (st.history ≠ [] ∨ (retrainNeeded cfg st = false ∧ ∀ w ∈ ws.take 1, w ≠ [])) →
    ∀ e, runWindows M cfg st ws ≠ .error e
  | [], st, _, e => by simp [runWindows]
  | w :: ws, st, h, e => by
    intro hrun
    simp only [runWindows] at hrun
    split at hrun
    · rename_i hcond
      simp only [Bool.and_eq_true, decide_eq_true_eq] at hcond
      rcases h with h | ⟨hrn, _⟩
      · exact h hcond.2
      · rw [hrn] at hcond
        exact absurd hcond.1 (by simp)
    · split at hrun
      · simp at hrun
      · rename_i e' hrec
        refine runWindows_ne_error M cfg ws _ (Or.inl ?_) e' hrec
        show (if retrainNeeded cfg st then retrainState M cfg st else st).history ++ w ≠ []
        rw [history_after_retrain_if]
        rcases h with h | ⟨_, hw⟩
        · exact fun hn => h (List.append_eq_nil.mp hn).1
        · exact fun hn => hw w (by simp) (List.append_eq_nil.mp hn).2

/-- Under the same conditions, the window loop always succeeds. -/
theorem runWindows_isOk {σ : Type} (M : Model σ) (cfg : TSADEvaluatorConfig)
    (ws : List (List (Nat × ℚ))) (st : EvalState σ)
    (h : st.history ≠ [] ∨ (retrainNeeded cfg st = false ∧ ∀ w ∈ ws.take 1, w ≠ [])) :
    ∃ outs stf, runWindows M cfg st ws = .ok (outs, stf) := by
  cases hres : runWindows M cfg st ws with
  | ok p => exact ⟨p.1, p.2, rfl⟩
  | error e => exact absurd hres (runWindows_ne_error M cfg ws st h e)

/-- Every successful window loop scores each window on its own
timestamp index, in window order. -/
theorem runWindows_idx {σ : Type} (M : Model σ) (cfg : TSADEvaluatorConfig)
    (hM : ∀ (s : σ) (w : List (Nat × ℚ)), seriesIndex (M.score s w) = w.map Prod.fst) :
    ∀ (ws : List (List (Nat × ℚ))) (st : EvalState σ) (outs : List ScoreSeries)
      (stf : EvalState σ),
      runWindows M cfg st ws = .ok (outs, stf) →
      outs.map seriesIndex = ws.map (List.map Prod.fst)
  | [], st, outs, stf, hrun => by
    simp only [runWindows, Except.ok.injEq, Prod.mk.injEq] at hrun
    obtain ⟨h1, _⟩ := hrun
    subst h1
    rfl
  | w :: ws, st, outs, stf, hrun => by
    simp only [runWindows] at hrun
    split at hrun
    · exact absurd hrun (by simp)
    · split at hrun
      · rename_i outs' stf' hrec
        simp only [Except.ok.injEq, Prod.mk.injEq] at hrun
        obtain ⟨h1, _⟩ := hrun
        subst h1
        simp only [List.map_cons]
        rw [runWindows_idx M cfg hM ws _ outs' stf' hrec, hM]
      · exact absurd hrun (by simp)

/-- With `retrain_freq = 4 * cadence` and the retrain timer at `r`
whole cadences (`r ≤ 4`), a successful window loop performs exactly
`(#windows + r - 1) / 4` retrains. -/
theorem runWindows_count {σ : Type} (M : Model σ) (c : Nat) (tw : Option Nat) (hc : 0 < c) :
    ∀ (ws : List (List (Nat × ℚ))) (st : EvalState σ) (r : Nat) (outs : List ScoreSeries)
      (stf : EvalState σ),
      st.sinceLast = r * c → r ≤ 4 →
      runWindows M ⟨c, some (4 * c), tw⟩ st ws = .ok (outs, stf) →
      stf.trainCount = st.trainCount + (ws.length + r - 1) / 4
  | [], st, r, outs, stf, hsl, hr4, hrun => by
    simp only [runWindows, Except.ok.injEq, Prod.mk.injEq] at hrun
    obtain ⟨_, h2⟩ := hrun
    subst h2
    simp only [List.length_nil]
    omega
  | w :: ws, st, r, outs, stf, hsl, hr4, hrun => by
    simp only [runWindows] at hrun
    split at hrun
    · exact absurd hrun (by simp)
    · by_cases hfire : retrainNeeded ⟨c, some (4 * c), tw⟩ st = true
      · have hr : r = 4 := by
          simp only [retrainNeeded, decide_eq_true_eq] at hfire
          rw [hsl] at hfire
          by_contra hne
          have h3 : r ≤ 3 := by omega
          have := Nat.mul_le_mul_right c h3
          omega
        rw [if_pos hfire] at hrun
        split at hrun
        · rename_i outs' stf' hrec
          simp only [Except.ok.injEq, Prod.mk.injEq] at hrun
          obtain ⟨_, h2⟩ := hrun
          subst h2
          have hcount := runWindows_count M c tw hc ws _ 1 outs' stf'
            (by simp [retrainState]) (by omega) hrec
          simp only [retrainState] at hcount
          subst hr
          simp only [List.length_cons]
          omega
        · exact absurd hrun (by simp)
      · have hr3 : r ≤ 3 := by
          by_contra hn
          have hreq : r = 4 := by omega
          subst hreq
          simp only [retrainNeeded, decide_eq_true_eq] at hfire
          exact hfire (by omega)
        rw [if_neg hfire] at hrun
        split at hrun
        · rename_i outs' stf' hrec
          simp only [Except.ok.injEq, Prod.mk.injEq] at hrun
          obtain ⟨_, h2⟩ := hrun
          subst h2
          have hcount := runWindows_count M c tw hc ws _ (r + 1) outs' stf'
            (by simp only []; rw [hsl]; ring) (by omega) hrec
          simp only [] at hcount
          simp only [List.length_cons]
          omega
        · exact absurd hrun (by simp)

/-- C2: for every test series with strictly increasing timestamps and
every positive cadence (dividing the horizon evenly or not), `evaluate`
succeeds and the concatenation, in window order, of its per-window
score outputs has a timestamp index exactly equal to the test series'
index. -/
theorem evaluator_coverage {σ : Type} (M : Model σ) (cfg : TSADEvaluatorConfig)
    (train_data test_data : List (Nat × ℚ))
    (hM : ∀ (s : σ) (w : List (Nat × ℚ)), seriesIndex (M.score s w) = w.map Prod.fst)
    (hs : strictIncTs test_data = true) (hc : 0 < cfg.cadence)
    (hR : ∀ R, cfg.retrain_freq = some R → 0 < R) :
    ∃ res : EvalResult σ,
      evaluate M cfg train_data test_data = .ok res ∧
      seriesIndex res.testPred = seriesIndex test_data := by
  simp only [evaluate]
  rw [if_pos hs]
  have hrn0 : retrainNeeded cfg
      ({ model := M.train train_data, history := train_data, sinceLast := 0,
         trainCount := 1 } : EvalState σ) = false := by
    unfold retrainNeeded
    cases hrf : cfg.retrain_freq with
    | none => rfl
    | some R =>
      have := hR R hrf
      simp
      omega
  have hok : ∃ outs stf, runWindows M cfg
      { model := M.train train_data, history := train_data, sinceLast := 0, trainCount := 1 }
      (windows cfg.cadence test_data) = .ok (outs, stf) := by
    apply runWindows_isOk
    by_cases htr : train_data = []
    · right
      refine ⟨by rw [htr] at hrn0 ⊢; exact hrn0, ?_⟩
      cases test_data with
      | nil =>
        intro w hw
        simp [windows] at hw
      | cons x rest =>
        obtain ⟨wrest, hw, hx⟩ := windows_head cfg.cadence hc x rest
        rw [hw]
        intro w hmem
        simp only [List.take_succ_cons, List.take_zero, List.mem_singleton] at hmem
        rw [hmem]
        exact List.ne_nil_of_mem hx
    · exact Or.inl htr
  obtain ⟨outs, stf, hok⟩ := hok
  rw [hok]
  refine ⟨_, rfl, ?_⟩
  show seriesIndex outs.flatten = seriesIndex test_data
  have hidx := runWindows_idx M cfg hM (windows cfg.cadence test_data) _ outs stf hok
  unfold seriesIndex
  rw [List.map_flatten]
  have heq : outs.map (List.map Prod.fst)
      = (windows cfg.cadence test_data).map (List.map Prod.fst) := by
    simpa [seriesIndex] using hidx
  rw [heq, ← List.map_flatten,
    windows_flatten cfg.cadence hc test_data (strictIncTs_pairwise _ hs)]

/-- A stub model: training is trivial and each window is scored with its
own data, so scores keep their window's timestamps. -/
def idModel : Model Unit := ⟨fun _ => (), fun _ w => w⟩

/-- Witness for C2 on a concrete test series whose cadence does not
divide its horizon evenly. -/
theorem evaluator_coverage_witness :
    ∃ res : EvalResult Unit,
      evaluate idModel ⟨2, some 8, none⟩ [(100, 5)] [(0, 1), (1, 2), (3, 3)] = .ok res ∧
      seriesIndex res.testPred = seriesIndex [(0, 1), (1, 2), (3, 3)] :=
  evaluator_coverage idModel ⟨2, some 8, none⟩ [(100, 5)] [(0, 1), (1, 2), (3, 3)]
    (fun _ _ => rfl) (by decide) (by decide)
    (by intro R h; simp at h; omega)

/-- C5: with `retrain_freq = 4 * cadence`, the evaluator invokes the
model's `train` exactly `⌈horizon / (4 * cadence)⌉` times in total,
counting the initial fit on the training data. -/
theorem evaluator_retrain_count {σ : Type} (M : Model σ) (c : Nat) (tw : Option Nat)
    (train_data test_data : List (Nat × ℚ))
    (hc : 0 < c) (hs : strictIncTs test_data = true)
    (htr : train_data ≠ []) (hte : test_data ≠ []) :
    ∃ res : EvalResult σ,
      evaluate M ⟨c, some (4 * c), tw⟩ train_data test_data = .ok res ∧
      res.finalState.trainCount = (horizonOf test_data + (4 * c - 1)) / (4 * c) := by
  simp only [evaluate]
  rw [if_pos hs]
  obtain ⟨outs, stf, hok⟩ := runWindows_isOk M ⟨c, some (4 * c), tw⟩
    (windows (TSADEvaluatorConfig.mk c (some (4 * c)) tw).cadence test_data)
    { model := M.train train_data, history := train_data, sinceLast := 0, trainCount := 1 }
    (Or.inl htr)
  rw [hok]
  refine ⟨_, rfl, ?_⟩
  show stf.trainCount = _
  have hcount := runWindows_count M c tw hc
    (windows (TSADEvaluatorConfig.mk c (some (4 * c)) tw).cadence test_data) _ 0 outs stf
    (by simp) (by omega) hok
  simp only [] at hcount
  cases test_data with
  | nil => exact absurd rfl hte
  | cons x rest =>
    rw [windows_length] at hcount
    unfold numWindows at hcount
    unfold horizonOf
    rw [hcount]
    set k := lastTs (x :: rest) - firstTs (x :: rest)
    rw [Nat.mul_comm 4 c]
    have e0 : k / c + 1 + 0 - 1 = k / c := by simp
    rw [e0, Nat.div_div_eq_div_mul]
    have e1 : k + 1 + (c * 4 - 1) = k + c * 4 := by omega
    rw [e1, Nat.add_div_right _ (by omega : 0 < c * 4)]
    exact Nat.add_comm 1 _

/-- Witness for C5: cadence 2, retrain every 4 windows, horizon 4,
giving `⌈4 / 8⌉ = 1` train call. -/
theorem evaluator_retrain_count_witness :
    ∃ res : EvalResult Unit,
      evaluate idModel ⟨2, some (4 * 2), none⟩ [(100, 5)] [(0, 1), (1, 2), (3, 3)] = .ok res ∧
      res.finalState.trainCount
        = (horizonOf [(0, 1), (1, 2), (3, 3)] + (4 * 2 - 1)) / (4 * 2) :=
  evaluator_retrain_count idModel 2 none [(100, 5)] [(0, 1), (1, 2), (3, 3)]
    (by decide) (by decide) (by simp) (by simp)
